import Mathlib

/-!
Verification development for the GIS_WebApp repository.

The repository is a small Django geospatial backend.  The parts embedded
here are:

* `BaseModel.fetch_all` (web_app/utils.py): runs a SQL query, returning the
  rows, and on any exception logs and returns the empty list.
* `execute_geojson_query` (web_app/utils.py): runs a SQL query and converts
  the rows into a GeoJSON FeatureCollection; on any exception it returns a
  `JsonResponse` (HTTP 200) with an `error`/`message` body.
* `korytarze_ekologiczne` and `jcwprzeczne` (web_app/views.py): the two layer
  endpoints, each with its own inline row-to-GeoJSON conversion.

The database is an external collaborator, so the functions are modelled as
taking the outcome of the SQL execution (`Except String (List Row)`: either an
exception message or the materialized rows) as an argument.  Python's
`json.loads` / `json.dumps` are modelled by an executable JSON parser and
serializer over an explicit JSON value type (numbers are kept as their source
literals, since numeric literal fidelity is irrelevant to every claim).
-/

/-! ## JSON values, serializer (`json.dumps`) and parser (`json.loads`) -/

/-- Whitespace characters skipped by the JSON parser. -/
def isWs (c : Char) : Bool :=
  c = ' ' || c = Char.ofNat 9 || c = Char.ofNat 10 || c = Char.ofNat 13

/-- Characters allowed to appear unescaped-or-escaped inside a parsed JSON
string: everything from space upward, plus the five controls that have
short escapes. -/
def validStrChar (c : Char) : Bool :=
  decide (32 ≤ c.toNat) || c = Char.ofNat 8 || c = Char.ofNat 12 ||
    c = Char.ofNat 10 || c = Char.ofNat 13 || c = Char.ofNat 9

/-- All characters of a parsed JSON string content are representable. -/
def validStrChars (l : List Char) : Bool :=
  l.all validStrChar

/-- One-or-more decimal digits; consumes them and returns the remainder. -/
def digits1 : List Char → Option (List Char)
  | [] => none
  | c :: t => if c.isDigit then some (t.dropWhile Char.isDigit) else none

/-- The integer part of a JSON number: `0`, or a nonzero digit followed by
digits. -/
def intPart : List Char → Option (List Char)
  | [] => none
  | c :: t =>
    if c = '0' then some t
    else if c.isDigit then some (t.dropWhile Char.isDigit) else none

/-- The optional fraction part of a JSON number. -/
def fracPart : List Char → Option (List Char)
  | [] => some []
  | c :: t => if c = '.' then digits1 t else some (c :: t)

/-- The signed digits after the `e` of an exponent. -/
def expTail : List Char → Option (List Char)
  | [] => none
  | d :: t' => if d = '+' || d = '-' then digits1 t' else digits1 (d :: t')

/-- The optional exponent part of a JSON number. -/
def expPart : List Char → Option (List Char)
  | [] => some []
  | c :: t => if c = 'e' || c = 'E' then expTail t else some (c :: t)

/-- Strip one optional leading minus sign. -/
def unsigned : List Char → List Char
  | [] => []
  | c :: t => if c = '-' then t else c :: t

/-- A list of characters is a well-formed JSON number literal. -/
def validNum (l : List Char) : Bool :=
  match intPart (unsigned l) with
  | none => false
  | some r1 =>
    match fracPart r1 with
    | none => false
    | some r2 =>
      match expPart r2 with
      | none => false
      | some r3 => r3.isEmpty

/-- A JSON number literal, kept as its source text. -/
abbrev NumLit := {l : List Char // validNum l = true}

/-- The decoded content of a JSON string. -/
abbrev StrContent := {l : List Char // validStrChars l = true}

/-- JSON values as produced by `json.loads`: numbers keep their literal
text, strings are decoded character lists. -/
inductive Json where
  | null : Json
  | boolean : Bool → Json
  | num : NumLit → Json
  | str : StrContent → Json
  | arr : List Json → Json
  | obj : List (StrContent × Json) → Json

/-- The opening brace character. -/
def lbraceC : Char := Char.ofNat 123

/-- The closing brace character. -/
def rbraceC : Char := Char.ofNat 125

/-- Escape one character for inclusion in a serialized JSON string. -/
def escChar (c : Char) : List Char :=
  if c = '"' then ['\\', '"']
  else if c = '\\' then ['\\', '\\']
  else if c = Char.ofNat 8 then ['\\', 'b']
  else if c = Char.ofNat 12 then ['\\', 'f']
  else if c = Char.ofNat 10 then ['\\', 'n']
  else if c = Char.ofNat 13 then ['\\', 'r']
  else if c = Char.ofNat 9 then ['\\', 't']
  else [c]

/-- Escape a whole string content. -/
def escList : List Char → List Char
  | [] => []
  | c :: t => escChar c ++ escList t

mutual

/-- Serialize a JSON value (compact separators, like
`json.dumps(x, separators=(',', ':'))`; Python's default extra spaces are
whitespace the parser skips anyway). -/
def emit : Json → List Char
  | Json.null => ['n', 'u', 'l', 'l']
  | Json.boolean true => ['t', 'r', 'u', 'e']
  | Json.boolean false => ['f', 'a', 'l', 's', 'e']
  | Json.num lit => lit.val
  | Json.str s => '"' :: (escList s.val ++ ['"'])
  | Json.arr xs => '[' :: (emitElems xs ++ [']'])
  | Json.obj ms => lbraceC :: (emitMembers ms ++ [rbraceC])

/-- Serialize the comma-separated elements of a JSON array. -/
def emitElems : List Json → List Char
  | [] => []
  | [x] => emit x
  | x :: y :: t => emit x ++ (',' :: emitElems (y :: t))

/-- Serialize the comma-separated members of a JSON object. -/
def emitMembers : List (StrContent × Json) → List Char
  | [] => []
  | [(k, v)] => '"' :: (escList k.val ++ ('"' :: ':' :: emit v))
  | (k, v) :: m :: t =>
    '"' :: (escList k.val ++ ('"' :: ':' :: (emit v ++ (',' :: emitMembers (m :: t)))))

end

/-- Skip leading whitespace. -/
def skipWs : List Char → List Char
  | [] => []
  | c :: t => if isWs c then skipWs t else c :: t

/-- Decode one escape character of a JSON string. -/
def unesc (c : Char) : Option Char :=
  if c = '"' then some '"'
  else if c = '\\' then some '\\'
  else if c = '/' then some '/'
  else if c = 'b' then some (Char.ofNat 8)
  else if c = 'f' then some (Char.ofNat 12)
  else if c = 'n' then some (Char.ofNat 10)
  else if c = 'r' then some (Char.ofNat 13)
  else if c = 't' then some (Char.ofNat 9)
  else none

/-- Parse the body of a JSON string after the opening quote; the flag records
that the previous character was a backslash.  Returns the decoded characters
and the input after the closing quote.  Raw control characters are rejected,
as in strict-mode `json.loads`. -/
def parseStrCore : Bool → List Char → Option (List Char × List Char)
  | _, [] => none
  | true, e :: cs =>
    match unesc e with
    | none => none
    | some d =>
      match parseStrCore false cs with
      | none => none
      | some (l, r) => some (d :: l, r)
  | false, c :: cs =>
    if c = '"' then some ([], cs)
    else if c = '\\' then parseStrCore true cs
    else if decide (c.toNat < 32) then none
    else
      match parseStrCore false cs with
      | none => none
      | some (l, r) => some (c :: l, r)

/-- First character of a JSON number literal. -/
def numStart (c : Char) : Bool := c = '-' || c.isDigit

/-- Characters a greedy number scan consumes. -/
def numChar (c : Char) : Bool :=
  c.isDigit || c = '-' || c = '+' || c = '.' || c = 'e' || c = 'E'

/-- What the recursive-descent core is currently parsing: a value, the
elements after `[`, or the members after `O=lbrace`. -/
inductive PKind where
  | value : PKind
  | elems : PKind
  | members : PKind

/-- Fuel-indexed recursive-descent JSON parser core.  In `elems` and
`members` modes the result value is always `Json.arr` / `Json.obj`. -/
def parseCore : Nat → PKind → List Char → Option (Json × List Char)
  | 0, _, _ => none
  | fuel + 1, PKind.value, cs =>
    match skipWs cs with
    | [] => none
    | c :: cs' =>
      if c = 'n' then
        match cs' with
        | 'u' :: 'l' :: 'l' :: r => some (Json.null, r)
        | _ => none
      else if c = 't' then
        match cs' with
        | 'r' :: 'u' :: 'e' :: r => some (Json.boolean true, r)
        | _ => none
      else if c = 'f' then
        match cs' with
        | 'a' :: 'l' :: 's' :: 'e' :: r => some (Json.boolean false, r)
        | _ => none
      else if c = '"' then
        match parseStrCore false cs' with
        | none => none
        | some (l, r) =>
          if h : validStrChars l = true then some (Json.str ⟨l, h⟩, r) else none
      else if c = '[' then
        match skipWs cs' with
        | [] => none
        | d :: r2 =>
          if d = ']' then some (Json.arr [], r2)
          else parseCore fuel PKind.elems cs'
      else if c = lbraceC then
        match skipWs cs' with
        | [] => none
        | d :: r2 =>
          if d = rbraceC then some (Json.obj [], r2)
          else parseCore fuel PKind.members cs'
      else if numStart c then
        let tok := (c :: cs').takeWhile numChar
        if h : validNum tok = true then
          some (Json.num ⟨tok, h⟩, (c :: cs').dropWhile numChar)
        else none
      else none
  | fuel + 1, PKind.elems, cs =>
    match parseCore fuel PKind.value cs with
    | none => none
    | some (v, r) =>
      match skipWs r with
      | [] => none
      | d :: r' =>
        if d = ',' then
          match parseCore fuel PKind.elems r' with
          | some (Json.arr vs, r2) => some (Json.arr (v :: vs), r2)
          | _ => none
        else if d = ']' then some (Json.arr [v], r')
        else none
  | fuel + 1, PKind.members, cs =>
    match skipWs cs with
    | [] => none
    | c :: cs' =>
      if c = '"' then
        match parseStrCore false cs' with
        | none => none
        | some (k, r) =>
          if h : validStrChars k = true then
            match skipWs r with
            | ':' :: r' =>
              match parseCore fuel PKind.value r' with
              | none => none
              | some (v, r2) =>
                match skipWs r2 with
                | [] => none
                | d :: r3 =>
                  if d = ',' then
                    match parseCore fuel PKind.members r3 with
                    | some (Json.obj ms, r4) => some (Json.obj ((⟨k, h⟩, v) :: ms), r4)
                    | _ => none
                  else if d = rbraceC then some (Json.obj [(⟨k, h⟩, v)], r3)
                  else none
            | _ => none
          else none
      else none

/-- Model of Python's `json.loads` on a string: parse one value and require
only whitespace after it. -/
def loads (s : String) : Option Json :=
  match parseCore (2 * s.data.length + 4) PKind.value s.data with
  | none => none
  | some (j, r) =>
    match skipWs r with
    | [] => some j
    | _ => none

/-- Model of Python's `json.dumps`. -/
def dumps (j : Json) : String := String.mk (emit j)

/-! ## Database rows and the program's functions -/

/-- A scalar database value as it appears in a row dictionary. -/
inductive DbValue where
  | vnull : DbValue
  | vint : Int → DbValue
  | vstr : String → DbValue
  | vbool : Bool → DbValue
deriving DecidableEq

/-- A row: Python's `dict(zip(columns, row))`, a mapping from column name to
value in column order. -/
abbrev Row := List (String × DbValue)

/-- Lookup of a key in a row dictionary (`row.get(key)`): `none` when the key
is absent. -/
def rget (r : Row) (key : String) : Option DbValue :=
  match r with
  | [] => none
  | (k, v) :: t => if k = key then some v else rget t key

/-- Python truthiness of a database value (`if row.get("geometry")`):
`None`, the empty string, `0` and `False` are falsy. -/
def truthy : DbValue → Bool
  | DbValue.vnull => false
  | DbValue.vint i => decide (i ≠ 0)
  | DbValue.vstr s => decide (s ≠ "")
  | DbValue.vbool b => b

/-- The row's `geometry` field is present and truthy (the list-comprehension
filter `if row.get("geometry")`). -/
def geomTruthy (r : Row) : Bool :=
  match rget r "geometry" with
  | none => false
  | some v => truthy v

/-- `json.loads` applied to a database value: non-strings raise `TypeError`,
strings parse or raise `JSONDecodeError`; both are modelled as `none`. -/
def loadsDb : DbValue → Option Json
  | DbValue.vstr s => loads s
  | _ => none

/-- A GeoJSON feature as built by the code: the `type` field is the constant
string `Feature` and is left implicit. -/
structure Feature where
  properties : List (String × DbValue)
  geometry : Json

/-- The `properties` dictionary of `execute_geojson_query`:
`\x7bkey: row[key] for key in row if key not in ["geometry", "geom"]\x7d`. -/
def featProps : Row → List (String × DbValue)
  | [] => []
  | (k, v) :: t =>
    if k = "geometry" ∨ k = "geom" then featProps t else (k, v) :: featProps t

/-- The feature list comprehension of `execute_geojson_query`: rows whose
`geometry` field is falsy are skipped; a `json.loads` failure on a kept row
raises, which the caller's `except` turns into an error. -/
def buildFeatures : List Row → Except String (List Feature)
  | [] => Except.ok []
  | r :: rs =>
    match rget r "geometry" with
    | none => buildFeatures rs
    | some v =>
      if truthy v then
        match loadsDb v with
        | none => Except.error "json decode error"
        | some g =>
          match buildFeatures rs with
          | Except.error e => Except.error e
          | Except.ok fs => Except.ok ({ properties := featProps r, geometry := g } :: fs)
      else buildFeatures rs

/-- The body of a `JsonResponse`: either a GeoJSON FeatureCollection (the
`type` field is the constant `FeatureCollection`) or the
`\x7b"error": ..., "message": ...\x7d` dictionary. -/
inductive RespBody where
  | featureCollection : List Feature → RespBody
  | errorBody : (error : String) → (message : String) → RespBody

/-- An HTTP response with its status code and JSON body. -/
structure Response where
  status : Nat
  body : RespBody

/-- Django's `JsonResponse(data)`: status defaults to 200. -/
def JsonResponse (b : RespBody) : Response :=
  { status := 200, body := b }

/-- `BaseModel.fetch_all` from web_app/utils.py: the `query` argument is the
SQL text, `outcome` the result of executing it against the database.  Any
exception is caught, printed and turned into the empty list. -/
def BaseModel.fetch_all (query : String) (outcome : Except String (List Row)) :
    List Row :=
  match outcome with
  | Except.ok rows => rows
  | Except.error _ => []

/-- `execute_geojson_query` from web_app/utils.py: the whole body is inside
`try`, and the `except` clause returns
`JsonResponse(\x7b"error": str(e), "message": "Error occurred while processing data."\x7d)`. -/
def execute_geojson_query (sql_query : String)
    (outcome : Except String (List Row)) : Response :=
  match outcome with
  | Except.error e => JsonResponse (RespBody.errorBody e "Error occurred while processing data.")
  | Except.ok rows =>
    match buildFeatures rows with
    | Except.error e => JsonResponse (RespBody.errorBody e "Error occurred while processing data.")
    | Except.ok fs => JsonResponse (RespBody.featureCollection fs)

/-- The feature list of the `korytarze_ekologiczne` view: no geometry filter,
properties are the hard-coded `\x7b"id": row["id"], "name": row["name"]\x7d`, and
`json.loads(row["geometry"])` runs on every row.  `KeyError` (missing key)
and `json.loads` failures (including `TypeError` on `None`) are modelled as
`Except.error`; the view has no `try`, so they are unhandled. -/
def buildKorytarzeFeatures : List Row → Except String (List Feature)
  | [] => Except.ok []
  | r :: rs =>
    match rget r "id", rget r "name", rget r "geometry" with
    | some idv, some namev, some gv =>
      (match loadsDb gv with
       | none => Except.error "json decode error"
       | some g =>
         match buildKorytarzeFeatures rs with
         | Except.error e => Except.error e
         | Except.ok fs =>
           Except.ok ({ properties := [("id", idv), ("name", namev)], geometry := g } :: fs))
    | _, _, _ => Except.error "KeyError"

/-- The `korytarze_ekologiczne` view from web_app/views.py, as a function of
the rows its fixed query returned.  `Except.error` is an unhandled exception
escaping the view. -/
def korytarze_ekologiczne (rows : List Row) : Except String Response :=
  match buildKorytarzeFeatures rows with
  | Except.error e => Except.error e
  | Except.ok fs => Except.ok (JsonResponse (RespBody.featureCollection fs))

/-- The feature list of the `jcwprzeczne` view: rows with falsy geometry are
filtered, properties are
`\x7b"id": row["id"], "name": row.get("Nazwa_JCWP", "Brak nazwy")\x7d`. -/
def buildJcwpFeatures : List Row → Except String (List Feature)
  | [] => Except.ok []
  | r :: rs =>
    match rget r "geometry" with
    | none => buildJcwpFeatures rs
    | some v =>
      if truthy v then
        match rget r "id" with
        | none => Except.error "KeyError"
        | some idv =>
          match loadsDb v with
          | none => Except.error "json decode error"
          | some g =>
            match buildJcwpFeatures rs with
            | Except.error e => Except.error e
            | Except.ok fs =>
              let namev := (rget r "Nazwa_JCWP").getD (DbValue.vstr "Brak nazwy")
              Except.ok ({ properties := [("id", idv), ("name", namev)], geometry := g } :: fs)
      else buildJcwpFeatures rs

/-- The `jcwprzeczne` view from web_app/views.py, as a function of the rows
its fixed query (which aliases `Nazwa_JCWP` to `name`) returned. -/
def jcwprzeczne (rows : List Row) : Except String Response :=
  match buildJcwpFeatures rows with
  | Except.error e => Except.error e
  | Except.ok fs => Except.ok (JsonResponse (RespBody.featureCollection fs))

/-! ## Helper lemmas about the JSON lexer components -/

/-- Skipping whitespace leaves a list whose head is not whitespace alone. -/
theorem skipWs_cons {c : Char} (l : List Char) (h : isWs c = false) :
    skipWs (c :: l) = c :: l := by
  simp [skipWs, h]

/-- Taking while a predicate holds, across an append whose left part wholly
satisfies it and whose right part starts by refuting it. -/
theorem takeWhile_all_app (p : Char → Bool) :
    ∀ xs ys, (∀ c ∈ xs, p c = true) → (∀ d t, ys = d :: t → p d = false) →
      (xs ++ ys).takeWhile p = xs ∧ (xs ++ ys).dropWhile p = ys := by
  intro xs
  induction xs with
  | nil =>
    intro ys _ hy
    cases ys with
    | nil => exact ⟨rfl, rfl⟩
    | cons d t =>
      have hd := hy d t rfl
      constructor
      · simp [List.takeWhile_cons, hd]
      · simp [List.dropWhile_cons, hd]
  | cons c xs ih =>
    intro ys hx hy
    have hc : p c = true := hx c (List.mem_cons_self c xs)
    have hrec := ih ys (fun d hd => hx d (List.mem_cons_of_mem c hd)) hy
    constructor
    · simpa [List.takeWhile_cons, hc] using hrec.1
    · simpa [List.dropWhile_cons, hc] using hrec.2

/-- Every character a `takeWhile` keeps satisfies the predicate. -/
theorem mem_takeWhile_pred (p : Char → Bool) :
    ∀ (l : List Char) (c : Char), c ∈ l.takeWhile p → p c = true := by
  intro l
  induction l with
  | nil => intro c hc; simp [List.takeWhile] at hc
  | cons a t ih =>
    intro c hc
    by_cases ha : p a = true
    · rw [List.takeWhile_cons_of_pos ha] at hc
      rcases List.mem_cons.mp hc with h | h
      · exact h ▸ ha
      · exact ih c h
    · rw [List.takeWhile_cons_of_neg (by simpa using ha)] at hc
      simp at hc

/-- A digit is a number character. -/
theorem digit_numChar {c : Char} (h : c.isDigit = true) : numChar c = true := by
  simp [numChar, h]

/-- `digits1` consumes a nonempty block of digits. -/
theorem digits1_split {l r : List Char} (h : digits1 l = some r) :
    ∃ pre, l = pre ++ r ∧ pre ≠ [] ∧ ∀ c ∈ pre, c.isDigit = true := by
  cases l with
  | nil => simp [digits1] at h
  | cons c t =>
    by_cases hc : c.isDigit = true
    · rw [digits1, if_pos hc] at h
      refine ⟨c :: t.takeWhile Char.isDigit, ?_, by simp, ?_⟩
      · rw [← Option.some_inj.mp h]
        simp [List.takeWhile_append_dropWhile]
      · intro d hd
        rcases List.mem_cons.mp hd with h' | h'
        · exact h' ▸ hc
        · exact mem_takeWhile_pred Char.isDigit t d h'
    · rw [digits1, if_neg (by simpa using hc)] at h
      simp at h

/-- The integer part consumes only number characters. -/
theorem intPart_split {l r : List Char} (h : intPart l = some r) :
    ∃ pre, l = pre ++ r ∧ ∀ c ∈ pre, numChar c = true := by
  cases l with
  | nil => simp [intPart] at h
  | cons c t =>
    by_cases h0 : c = '0'
    · rw [intPart, if_pos h0] at h
      refine ⟨[c], by simp [Option.some_inj.mp h], ?_⟩
      intro d hd
      rcases List.mem_singleton.mp hd with rfl
      subst h0; decide
    · by_cases hd : c.isDigit = true
      · rw [intPart, if_neg h0, if_pos hd] at h
        refine ⟨c :: t.takeWhile Char.isDigit, ?_, ?_⟩
        · rw [← Option.some_inj.mp h]
          simp [List.takeWhile_append_dropWhile]
        · intro d hdm
          rcases List.mem_cons.mp hdm with h' | h'
          · subst h'; exact digit_numChar hd
          · exact digit_numChar (mem_takeWhile_pred Char.isDigit t d h')
      · rw [intPart, if_neg h0, if_neg (by simpa using hd)] at h
        simp at h

/-- The fraction part consumes only number characters. -/
theorem fracPart_split {l r : List Char} (h : fracPart l = some r) :
    ∃ pre, l = pre ++ r ∧ ∀ c ∈ pre, numChar c = true := by
  cases l with
  | nil =>
    refine ⟨[], ?_, by simp⟩
    simp [fracPart] at h
    simp [h]
  | cons c t =>
    by_cases hc : c = '.'
    · rw [fracPart, if_pos hc] at h
      obtain ⟨pre, hpre, _, hall⟩ := digits1_split h
      refine ⟨c :: pre, by simp [hpre], ?_⟩
      intro d hd
      rcases List.mem_cons.mp hd with h' | h'
      · subst h'; subst hc; decide
      · exact digit_numChar (hall d h')
    · rw [fracPart, if_neg hc] at h
      exact ⟨[], by simp [← Option.some_inj.mp h], by simp⟩

/-- The tail of an exponent consumes only number characters. -/
theorem expTail_split {l r : List Char} (h : expTail l = some r) :
    ∃ pre, l = pre ++ r ∧ ∀ c ∈ pre, numChar c = true := by
  cases l with
  | nil => simp [expTail] at h
  | cons d t' =>
    by_cases hdc : (d = '+' || d = '-') = true
    · rw [expTail, if_pos hdc] at h
      obtain ⟨pre, hpre, _, hall⟩ := digits1_split h
      refine ⟨d :: pre, by simp [hpre], ?_⟩
      intro x hx
      rcases List.mem_cons.mp hx with rfl | h'
      · have hdc' : x = '+' ∨ x = '-' := by simpa using hdc
        rcases hdc' with rfl | rfl <;> decide
      · exact digit_numChar (hall x h')
    · rw [expTail, if_neg hdc] at h
      obtain ⟨pre, hpre, _, hall⟩ := digits1_split h
      exact ⟨pre, hpre, fun x hx => digit_numChar (hall x hx)⟩

/-- The exponent part consumes only number characters. -/
theorem expPart_split {l r : List Char} (h : expPart l = some r) :
    ∃ pre, l = pre ++ r ∧ ∀ c ∈ pre, numChar c = true := by
  cases l with
  | nil =>
    refine ⟨[], ?_, by simp⟩
    simp [expPart] at h
    simp [h]
  | cons c t =>
    by_cases hc : (c = 'e' || c = 'E') = true
    · rw [expPart, if_pos hc] at h
      have hcn : numChar c = true := by
        have hc' : c = 'e' ∨ c = 'E' := by simpa using hc
        rcases hc' with rfl | rfl <;> decide
      obtain ⟨pre, hpre, hall⟩ := expTail_split h
      refine ⟨c :: pre, by simp [hpre], ?_⟩
      intro x hx
      rcases List.mem_cons.mp hx with h' | h'
      · subst h'; exact hcn
      · exact hall x h'
    · rw [expPart, if_neg hc] at h
      exact ⟨[], by simp [← Option.some_inj.mp h], by simp⟩

/-- A well-formed number literal is nonempty and starts with a minus sign or
a digit. -/
theorem validNum_head {l : List Char} (h : validNum l = true) :
    ∃ c t, l = c :: t ∧ numStart c = true := by
  cases l with
  | nil => simp [validNum, unsigned, intPart] at h
  | cons c t =>
    refine ⟨c, t, rfl, ?_⟩
    by_cases hc : c = '-'
    · subst hc; decide
    · rw [validNum, unsigned, if_neg hc] at h
      by_cases h0 : c = '0'
      · subst h0; decide
      · by_cases hd : c.isDigit = true
        · simp [numStart, hd]
        · rw [intPart, if_neg h0, if_neg (by simpa using hd)] at h
          simp at h

/-- Unfolding of number-literal validity into its three stages. -/
theorem validNum_elim {l : List Char} (h : validNum l = true) :
    ∃ r1 r2, intPart (unsigned l) = some r1 ∧ fracPart r1 = some r2 ∧
      expPart r2 = some [] := by
  unfold validNum at h
  split at h
  · exact absurd h (by simp)
  next r1 hI =>
    split at h
    · exact absurd h (by simp)
    next r2 hF =>
      split at h
      · exact absurd h (by simp)
      next r3 hE =>
        have h3 : r3 = [] := List.isEmpty_iff.mp h
        subst h3
        exact ⟨r1, r2, hI, hF, hE⟩

/-- Every character of a well-formed number literal is a number character. -/
theorem validNum_all {l : List Char} (h : validNum l = true) :
    ∀ c ∈ l, numChar c = true := by
  obtain ⟨r1, r2, hI, hF, hE⟩ := validNum_elim h
  obtain ⟨p1, hp1, ha1⟩ := intPart_split hI
  obtain ⟨p2, hp2, ha2⟩ := fracPart_split hF
  obtain ⟨p3, hp3, ha3⟩ := expPart_split hE
  rw [List.append_nil] at hp3
  have hun : ∀ c ∈ unsigned l, numChar c = true := by
    intro c hc
    rw [hp1] at hc
    rcases List.mem_append.mp hc with h' | h'
    · exact ha1 c h'
    · rw [hp2] at h'
      rcases List.mem_append.mp h' with h'' | h''
      · exact ha2 c h''
      · exact ha3 c (hp3 ▸ h'')
  intro c hc
  cases l with
  | nil => simp at hc
  | cons a t =>
    by_cases ha : a = '-'
    · rcases List.mem_cons.mp hc with h' | h'
      · subst h'; subst ha; decide
      · exact hun c (by simpa [unsigned, ha] using h')
    · exact hun c (by simpa [unsigned, ha] using hc)

/-! ## String escaping round-trip -/

/-- Parsing an escaped string body recovers the original characters. -/
theorem parseStrCore_esc : ∀ (l rest : List Char), validStrChars l = true →
    parseStrCore false (escList l ++ ('"' :: rest)) = some (l, rest) := by
  intro l
  induction l with
  | nil => intro rest _; rfl
  | cons c t ih =>
    intro rest hv
    have hv' : validStrChar c = true ∧ validStrChars t = true := by
      simpa [validStrChars] using hv
    have hvc := hv'.1
    have hvt := hv'.2
    have iht := ih rest hvt
    show parseStrCore false ((escChar c ++ escList t) ++ ('"' :: rest)) = some (c :: t, rest)
    rw [List.append_assoc]
    by_cases h1 : c = '"'
    · rw [escChar, if_pos h1]
      show (match parseStrCore false (escList t ++ ('"' :: rest)) with
            | none => none
            | some (l, r) => some ('"' :: l, r)) = some (c :: t, rest)
      rw [iht, h1]
    · rw [escChar, if_neg h1]
      by_cases h2 : c = '\\'
      · rw [if_pos h2]
        show (match parseStrCore false (escList t ++ ('"' :: rest)) with
              | none => none
              | some (l, r) => some ('\\' :: l, r)) = some (c :: t, rest)
        rw [iht, h2]
      · rw [if_neg h2]
        by_cases h3 : c = Char.ofNat 8
        · rw [if_pos h3]
          show (match parseStrCore false (escList t ++ ('"' :: rest)) with
                | none => none
                | some (l, r) => some (Char.ofNat 8 :: l, r)) = some (c :: t, rest)
          rw [iht, h3]
        · rw [if_neg h3]
          by_cases h4 : c = Char.ofNat 12
          · rw [if_pos h4]
            show (match parseStrCore false (escList t ++ ('"' :: rest)) with
                  | none => none
                  | some (l, r) => some (Char.ofNat 12 :: l, r)) = some (c :: t, rest)
            rw [iht, h4]
          · rw [if_neg h4]
            by_cases h5 : c = Char.ofNat 10
            · rw [if_pos h5]
              show (match parseStrCore false (escList t ++ ('"' :: rest)) with
                    | none => none
                    | some (l, r) => some (Char.ofNat 10 :: l, r)) = some (c :: t, rest)
              rw [iht, h5]
            · rw [if_neg h5]
              by_cases h6 : c = Char.ofNat 13
              · rw [if_pos h6]
                show (match parseStrCore false (escList t ++ ('"' :: rest)) with
                      | none => none
                      | some (l, r) => some (Char.ofNat 13 :: l, r)) = some (c :: t, rest)
                rw [iht, h6]
              · rw [if_neg h6]
                by_cases h7 : c = Char.ofNat 9
                · rw [if_pos h7]
                  show (match parseStrCore false (escList t ++ ('"' :: rest)) with
                        | none => none
                        | some (l, r) => some (Char.ofNat 9 :: l, r)) = some (c :: t, rest)
                  rw [iht, h7]
                · rw [if_neg h7]
                  have h32 : decide (c.toNat < 32) = false := by
                    have : 32 ≤ c.toNat := by
                      rcases Bool.or_eq_true_iff.mp hvc with h' | h'
                      · rcases Bool.or_eq_true_iff.mp h' with h'' | h''
                        · rcases Bool.or_eq_true_iff.mp h'' with h3' | h3'
                          · rcases Bool.or_eq_true_iff.mp h3' with h4' | h4'
                            · rcases Bool.or_eq_true_iff.mp h4' with h5' | h5'
                              · exact of_decide_eq_true h5'
                              · exact absurd (of_decide_eq_true h5') h3
                            · exact absurd (of_decide_eq_true h4') h4
                          · exact absurd (of_decide_eq_true h3') h5
                        · exact absurd (of_decide_eq_true h'') h6
                      · exact absurd (of_decide_eq_true h') h7
                    simpa using this
                  show parseStrCore false (c :: (escList t ++ ('"' :: rest))) = some (c :: t, rest)
                  rw [parseStrCore, if_neg h1, if_neg h2, if_neg (by simp [h32]), iht]

/-! ## Sizes and head characters of serialized values -/

mutual

/-- Structural size of a JSON value, used as a fuel lower bound. -/
def szJ : Json → Nat
  | Json.null => 1
  | Json.boolean _ => 1
  | Json.num _ => 1
  | Json.str _ => 1
  | Json.arr xs => 1 + szL xs
  | Json.obj ms => 1 + szM ms

/-- Structural size of a list of array elements. -/
def szL : List Json → Nat
  | [] => 1
  | x :: t => 1 + szJ x + szL t

/-- Structural size of a list of object members. -/
def szM : List (StrContent × Json) → Nat
  | [] => 1
  | (_, v) :: t => 1 + szJ v + szM t

end

/-- Sizes are positive. -/
theorem szJ_pos (j : Json) : 1 ≤ szJ j := by
  cases j <;> simp [szJ]

/-- List sizes are positive. -/
theorem szL_pos (xs : List Json) : 1 ≤ szL xs := by
  cases xs <;> simp [szL] <;> omega

/-- Member-list sizes are positive. -/
theorem szM_pos (ms : List (StrContent × Json)) : 1 ≤ szM ms := by
  cases ms with
  | nil => simp [szM]
  | cons m t => rcases m with ⟨k, v⟩; simp [szM]; omega

/-- The remainder after a serialized value may be empty or start with a
separator or closing bracket; no such character continues a number scan. -/
def delimOk : List Char → Bool
  | [] => true
  | c :: _ => c = ',' || c = ']' || c = rbraceC

/-- Delimiters are not number characters. -/
theorem delim_not_numChar {r : List Char} (h : delimOk r = true) :
    ∀ d t, r = d :: t → numChar d = false := by
  intro d t hr
  subst hr
  have h' : (d = ',' ∨ d = ']') ∨ d = rbraceC := by simpa [delimOk] using h
  rcases h' with (rfl | rfl) | rfl <;> decide

/-- The first character of a number literal is no keyword, bracket,
whitespace or separator character. -/
theorem numStart_ne {c : Char} (h : numStart c = true) :
    isWs c = false ∧ c ≠ 'n' ∧ c ≠ 't' ∧ c ≠ 'f' ∧ c ≠ '"' ∧ c ≠ '[' ∧
      c ≠ lbraceC ∧ c ≠ ']' ∧ c ≠ rbraceC := by
  have h' : c = '-' ∨ c.isDigit = true := by simpa [numStart] using h
  rcases h' with rfl | hd
  · exact ⟨by decide, by decide, by decide, by decide, by decide, by decide,
      by decide, by decide, by decide⟩
  · refine ⟨?_, ?_, ?_, ?_, ?_, ?_, ?_, ?_, ?_⟩
    · cases hb : isWs c
      · rfl
      · exfalso
        have hc : ((c = ' ' ∨ c = Char.ofNat 9) ∨ c = Char.ofNat 10) ∨ c = Char.ofNat 13 := by
          simpa [isWs] using hb
        rcases hc with ((rfl | rfl) | rfl) | rfl <;> exact absurd hd (by decide)
    all_goals (intro hEq; subst hEq; exact absurd hd (by decide))

/-- Every serialized JSON value starts with a visible, non-closing
character. -/
theorem emit_head (j : Json) : ∃ c t, emit j = c :: t ∧ isWs c = false ∧
    c ≠ ']' ∧ c ≠ rbraceC ∧ c ≠ ',' := by
  cases j with
  | null => exact ⟨'n', ['u', 'l', 'l'], by simp [emit], by decide, by decide, by decide, by decide⟩
  | boolean b =>
    cases b with
    | true => exact ⟨'t', ['r', 'u', 'e'], by simp [emit], by decide, by decide, by decide, by decide⟩
    | false =>
      exact ⟨'f', ['a', 'l', 's', 'e'], by simp [emit], by decide, by decide, by decide, by decide⟩
  | num lit =>
    obtain ⟨c, t, hl, hs⟩ := validNum_head lit.property
    obtain ⟨_, _, _, _, _, _, _, h8, h9⟩ := numStart_ne hs
    refine ⟨c, t, by simp [emit, hl], (numStart_ne hs).1, h8, h9, ?_⟩
    intro hEq
    have h' : c = '-' ∨ c.isDigit = true := by simpa [numStart] using hs
    rcases h' with h'' | h''
    · rw [hEq] at h''; exact absurd h'' (by decide)
    · rw [hEq] at h''; exact absurd h'' (by decide)
  | str s =>
    exact ⟨'"', escList s.val ++ ['"'], by simp [emit], by decide, by decide, by decide, by decide⟩
  | arr xs =>
    exact ⟨'[', emitElems xs ++ [']'], by simp [emit], by decide, by decide, by decide, by decide⟩
  | obj ms =>
    exact ⟨lbraceC, emitMembers ms ++ [rbraceC], by simp [emit], by decide, by decide, by decide,
      by decide⟩

/-- Skipping whitespace in front of a serialized value does nothing. -/
theorem skipWs_emit (j : Json) (r : List Char) :
    skipWs (emit j ++ r) = emit j ++ r := by
  obtain ⟨c, t, hl, hws, _, _, _⟩ := emit_head j
  rw [hl, List.cons_append, skipWs_cons _ hws]

/-- The characters emitted after an array element: nothing for the last
element, a comma and the remaining elements otherwise. -/
def sepTail : List Json → List Char
  | [] => []
  | y :: t => ',' :: emitElems (y :: t)

/-- Decompose the serialization of a nonempty element list. -/
theorem emitElems_cons_eq (x : Json) (t : List Json) :
    emitElems (x :: t) = emit x ++ sepTail t := by
  cases t with
  | nil => simp [emitElems, sepTail]
  | cons y t' => simp [emitElems, sepTail]

/-- The characters emitted after an object member. -/
def sepTailM : List (StrContent × Json) → List Char
  | [] => []
  | m :: t => ',' :: emitMembers (m :: t)

/-- Decompose the serialization of a nonempty member list. -/
theorem emitMembers_cons_eq (k : StrContent) (v : Json) (t : List (StrContent × Json)) :
    emitMembers ((k, v) :: t) = '"' :: (escList k.val ++ ('"' :: ':' :: (emit v ++ sepTailM t))) := by
  cases t with
  | nil => simp [emitMembers, sepTailM]
  | cons m t' => simp [emitMembers, sepTailM]

/-! ## One-step unfolding of the parser core -/

/-- One step of the parser in value mode. -/
theorem parseCore_value_eq (fuel : Nat) (cs : List Char) :
    parseCore (fuel + 1) PKind.value cs =
      (match skipWs cs with
       | [] => none
       | c :: cs' =>
         if c = 'n' then
           match cs' with
           | 'u' :: 'l' :: 'l' :: r => some (Json.null, r)
           | _ => none
         else if c = 't' then
           match cs' with
           | 'r' :: 'u' :: 'e' :: r => some (Json.boolean true, r)
           | _ => none
         else if c = 'f' then
           match cs' with
           | 'a' :: 'l' :: 's' :: 'e' :: r => some (Json.boolean false, r)
           | _ => none
         else if c = '"' then
           match parseStrCore false cs' with
           | none => none
           | some (l, r) =>
             if h : validStrChars l = true then some (Json.str ⟨l, h⟩, r) else none
         else if c = '[' then
           match skipWs cs' with
           | [] => none
           | d :: r2 =>
             if d = ']' then some (Json.arr [], r2)
             else parseCore fuel PKind.elems cs'
         else if c = lbraceC then
           match skipWs cs' with
           | [] => none
           | d :: r2 =>
             if d = rbraceC then some (Json.obj [], r2)
             else parseCore fuel PKind.members cs'
         else if numStart c then
           let tok := (c :: cs').takeWhile numChar
           if h : validNum tok = true then
             some (Json.num ⟨tok, h⟩, (c :: cs').dropWhile numChar)
           else none
         else none) := rfl

/-- One step of the parser in element mode. -/
theorem parseCore_elems_eq (fuel : Nat) (cs : List Char) :
    parseCore (fuel + 1) PKind.elems cs =
      (match parseCore fuel PKind.value cs with
       | none => none
       | some (v, r) =>
         match skipWs r with
         | [] => none
         | d :: r' =>
           if d = ',' then
             match parseCore fuel PKind.elems r' with
             | some (Json.arr vs, r2) => some (Json.arr (v :: vs), r2)
             | _ => none
           else if d = ']' then some (Json.arr [v], r')
           else none) := rfl

/-- In value mode, an input starting with a number character parses as a
greedily scanned number literal. -/
theorem parseCore_value_numlit (fuel : Nat) (c : Char) (cs' : List Char)
    (hnum : numStart c = true) :
    parseCore (fuel + 1) PKind.value (c :: cs') =
      (if h : validNum ((c :: cs').takeWhile numChar) = true then
        some (Json.num ⟨(c :: cs').takeWhile numChar, h⟩, (c :: cs').dropWhile numChar)
       else none) := by
  obtain ⟨hws, hn, ht, hf, hq, hlb, hlbr, _, _⟩ := numStart_ne hnum
  rw [parseCore_value_eq, skipWs_cons _ hws]
  show (if c = 'n' then
          match cs' with
          | 'u' :: 'l' :: 'l' :: r => some (Json.null, r)
          | _ => none
        else if c = 't' then
          match cs' with
          | 'r' :: 'u' :: 'e' :: r => some (Json.boolean true, r)
          | _ => none
        else if c = 'f' then
          match cs' with
          | 'a' :: 'l' :: 's' :: 'e' :: r => some (Json.boolean false, r)
          | _ => none
        else if c = '"' then
          match parseStrCore false cs' with
          | none => none
          | some (l, r) =>
            if h : validStrChars l = true then some (Json.str ⟨l, h⟩, r) else none
        else if c = '[' then
          match skipWs cs' with
          | [] => none
          | d :: r2 =>
            if d = ']' then some (Json.arr [], r2)
            else parseCore fuel PKind.elems cs'
        else if c = lbraceC then
          match skipWs cs' with
          | [] => none
          | d :: r2 =>
            if d = rbraceC then some (Json.obj [], r2)
            else parseCore fuel PKind.members cs'
        else if numStart c then
          let tok := (c :: cs').takeWhile numChar
          if h : validNum tok = true then
            some (Json.num ⟨tok, h⟩, (c :: cs').dropWhile numChar)
          else none
        else none) = _
  rw [if_neg hn, if_neg ht, if_neg hf, if_neg hq, if_neg hlb, if_neg hlbr,
    if_pos (by simp [hnum])]

/-- In value mode, `[` followed by a non-`]` lookahead defers to element
mode. -/
theorem parseCore_value_arrTail (fuel : Nat) (X : List Char) (d : Char) (r2 : List Char)
    (hskip : skipWs X = d :: r2) (hd : d ≠ ']') :
    parseCore (fuel + 1) PKind.value ('[' :: X) = parseCore fuel PKind.elems X := by
  have hsk : skipWs ('[' :: X) = '[' :: X := skipWs_cons X (by decide)
  rw [parseCore_value_eq, hsk]
  show (match skipWs X with
        | [] => none
        | d :: r2 =>
          if d = ']' then some (Json.arr [], r2)
          else parseCore fuel PKind.elems X) = _
  rw [hskip]
  show (if d = ']' then some (Json.arr [], r2) else parseCore fuel PKind.elems X) = _
  rw [if_neg hd]

/-- In value mode, an opening brace followed by a non-closing-brace lookahead
defers to member mode. -/
theorem parseCore_value_objTail (fuel : Nat) (X : List Char) (d : Char) (r2 : List Char)
    (hskip : skipWs X = d :: r2) (hd : d ≠ rbraceC) :
    parseCore (fuel + 1) PKind.value (lbraceC :: X) = parseCore fuel PKind.members X := by
  have hsk : skipWs (lbraceC :: X) = lbraceC :: X := skipWs_cons X (by decide)
  rw [parseCore_value_eq, hsk]
  show (match skipWs X with
        | [] => none
        | d :: r2 =>
          if d = rbraceC then some (Json.obj [], r2)
          else parseCore fuel PKind.members X) = _
  rw [hskip]
  show (if d = rbraceC then some (Json.obj [], r2) else parseCore fuel PKind.members X) = _
  rw [if_neg hd]

/-! ## The parser inverts the serializer -/

/-- With enough fuel, parsing a serialized JSON value (followed by a
delimiter or nothing) succeeds and returns exactly that value. -/
theorem parseCore_emit : ∀ fuel : Nat,
    (∀ (j : Json) (rest : List Char), szJ j ≤ fuel → delimOk rest = true →
      parseCore fuel PKind.value (emit j ++ rest) = some (j, rest)) ∧
    (∀ (xs : List Json) (rest : List Char), xs ≠ [] → szL xs ≤ fuel →
      parseCore fuel PKind.elems (emitElems xs ++ (']' :: rest)) = some (Json.arr xs, rest)) ∧
    (∀ (ms : List (StrContent × Json)) (rest : List Char), ms ≠ [] → szM ms ≤ fuel →
      parseCore fuel PKind.members (emitMembers ms ++ (rbraceC :: rest)) =
        some (Json.obj ms, rest)) := by
  intro fuel
  induction fuel with
  | zero =>
    refine ⟨?_, ?_, ?_⟩
    · intro j rest hsz _
      exact absurd hsz (by have := szJ_pos j; omega)
    · intro xs rest _ hsz
      exact absurd hsz (by have := szL_pos xs; omega)
    · intro ms rest _ hsz
      exact absurd hsz (by have := szM_pos ms; omega)
  | succ fuel ih =>
    obtain ⟨ihV, ihE, ihM⟩ := ih
    refine ⟨?_, ?_, ?_⟩
    · intro j rest hsz hrest
      cases j with
      | null => simp only [emit]; rfl
      | boolean b => cases b <;> (simp only [emit]; rfl)
      | num lit =>
        obtain ⟨c, t, hl, hstart⟩ := validNum_head lit.property
        simp only [emit]
        rw [hl, List.cons_append, parseCore_value_numlit fuel c (t ++ rest) hstart,
          ← List.cons_append, ← hl]
        have htw := takeWhile_all_app numChar lit.val rest (validNum_all lit.property)
          (delim_not_numChar hrest)
        rw [htw.1, htw.2, dif_pos lit.property]
      | str s =>
        simp only [emit]
        rw [List.cons_append, List.append_assoc, List.singleton_append]
        have hsk : skipWs ('"' :: (escList s.val ++ ('"' :: rest))) =
            '"' :: (escList s.val ++ ('"' :: rest)) := skipWs_cons _ (by decide)
        rw [parseCore_value_eq, hsk]
        show (match parseStrCore false (escList s.val ++ ('"' :: rest)) with
              | none => none
              | some (l, r) =>
                if h : validStrChars l = true then some (Json.str ⟨l, h⟩, r) else none) =
            some (Json.str s, rest)
        rw [parseStrCore_esc s.val rest s.property]
        show (if h : validStrChars s.val = true then some (Json.str ⟨s.val, h⟩, rest)
              else none) = some (Json.str s, rest)
        rw [dif_pos s.property]
      | arr xs =>
        cases xs with
        | nil => simp only [emit, emitElems]; rfl
        | cons x t =>
          have hx1 : szL (x :: t) ≤ fuel := by simp only [szJ] at hsz; omega
          simp only [emit]
          rw [List.cons_append, List.append_assoc, List.singleton_append]
          obtain ⟨c0, t0, hx0, hws0, hne1, _, _⟩ := emit_head x
          have hskip : skipWs (emitElems (x :: t) ++ (']' :: rest)) =
              c0 :: (t0 ++ (sepTail t ++ (']' :: rest))) := by
            rw [emitElems_cons_eq, List.append_assoc, hx0, List.cons_append]
            exact skipWs_cons _ hws0
          rw [parseCore_value_arrTail fuel _ c0 _ hskip hne1]
          exact ihE (x :: t) rest (by simp) hx1
      | obj ms =>
        cases ms with
        | nil => simp only [emit, emitMembers]; rfl
        | cons m t =>
          rcases m with ⟨k, v⟩
          have hm1 : szM ((k, v) :: t) ≤ fuel := by simp only [szJ] at hsz; omega
          simp only [emit]
          rw [List.cons_append, List.append_assoc, List.singleton_append]
          have hskip : skipWs (emitMembers ((k, v) :: t) ++ (rbraceC :: rest)) =
              '"' :: ((escList k.val ++ ('"' :: ':' :: (emit v ++ sepTailM t))) ++
                (rbraceC :: rest)) := by
            rw [emitMembers_cons_eq, List.cons_append]
            exact skipWs_cons _ (by decide)
          rw [parseCore_value_objTail fuel _ '"' _ hskip (by decide)]
          exact ihM ((k, v) :: t) rest (by simp) hm1
    · intro xs rest hne hsz
      cases xs with
      | nil => exact absurd rfl hne
      | cons x t =>
        have hszx : szJ x ≤ fuel := by
          have := szL_pos t; simp only [szL] at hsz; omega
        have hszt : szL t ≤ fuel := by
          have := szJ_pos x; simp only [szL] at hsz; omega
        rw [parseCore_elems_eq, emitElems_cons_eq, List.append_assoc]
        cases t with
        | nil =>
          simp only [sepTail, List.nil_append]
          rw [ihV x (']' :: rest) hszx rfl]
          rfl
        | cons y t' =>
          simp only [sepTail]
          rw [List.cons_append]
          rw [ihV x (',' :: (emitElems (y :: t') ++ (']' :: rest))) hszx rfl]
          show (match parseCore fuel PKind.elems (emitElems (y :: t') ++ (']' :: rest)) with
                | some (Json.arr vs, r2) => some (Json.arr (x :: vs), r2)
                | _ => none) = some (Json.arr (x :: y :: t'), rest)
          rw [ihE (y :: t') rest (by simp) hszt]
    · intro ms rest hne hsz
      cases ms with
      | nil => exact absurd rfl hne
      | cons m t =>
        rcases m with ⟨k, v⟩
        have hszv : szJ v ≤ fuel := by
          have := szM_pos t; simp only [szM] at hsz; omega
        have hszt : szM t ≤ fuel := by
          have := szJ_pos v; simp only [szM] at hsz; omega
        rw [emitMembers_cons_eq]
        simp only [List.cons_append, List.append_assoc]
        cases t with
        | nil =>
          simp only [sepTailM, List.nil_append]
          show (match parseStrCore false (escList k.val ++
                  ('"' :: (':' :: (emit v ++ (rbraceC :: rest))))) with
                | none => none
                | some (k', r) =>
                  if h : validStrChars k' = true then
                    match skipWs r with
                    | ':' :: r' =>
                      match parseCore fuel PKind.value r' with
                      | none => none
                      | some (v', r2) =>
                        match skipWs r2 with
                        | [] => none
                        | d :: r3 =>
                          if d = ',' then
                            match parseCore fuel PKind.members r3 with
                            | some (Json.obj ms', r4) =>
                              some (Json.obj ((⟨k', h⟩, v') :: ms'), r4)
                            | _ => none
                          else if d = rbraceC then some (Json.obj [(⟨k', h⟩, v')], r3)
                          else none
                    | _ => none
                  else none) = some (Json.obj [(k, v)], rest)
          rw [parseStrCore_esc k.val _ k.property]
          show (if h : validStrChars k.val = true then
                  match skipWs (':' :: (emit v ++ (rbraceC :: rest))) with
                  | ':' :: r' =>
                    match parseCore fuel PKind.value r' with
                    | none => none
                    | some (v', r2) =>
                      match skipWs r2 with
                      | [] => none
                      | d :: r3 =>
                        if d = ',' then
                          match parseCore fuel PKind.members r3 with
                          | some (Json.obj ms', r4) =>
                            some (Json.obj ((⟨k.val, h⟩, v') :: ms'), r4)
                          | _ => none
                        else if d = rbraceC then some (Json.obj [(⟨k.val, h⟩, v')], r3)
                        else none
                  | _ => none
                else none) = some (Json.obj [(k, v)], rest)
          rw [dif_pos k.property]
          show (match parseCore fuel PKind.value (emit v ++ (rbraceC :: rest)) with
                | none => none
                | some (v', r2) =>
                  match skipWs r2 with
                  | [] => none
                  | d :: r3 =>
                    if d = ',' then
                      match parseCore fuel PKind.members r3 with
                      | some (Json.obj ms', r4) =>
                        some (Json.obj ((⟨k.val, k.property⟩, v') :: ms'), r4)
                      | _ => none
                    else if d = rbraceC then some (Json.obj [(⟨k.val, k.property⟩, v')], r3)
                    else none) = some (Json.obj [(k, v)], rest)
          rw [ihV v (rbraceC :: rest) hszv rfl]
          rfl
        | cons m' t'' =>
          simp only [sepTailM, List.cons_append]
          show (match parseStrCore false (escList k.val ++
                  ('"' :: (':' :: (emit v ++ (',' :: (emitMembers (m' :: t'') ++
                    (rbraceC :: rest))))))) with
                | none => none
                | some (k', r) =>
                  if h : validStrChars k' = true then
                    match skipWs r with
                    | ':' :: r' =>
                      match parseCore fuel PKind.value r' with
                      | none => none
                      | some (v', r2) =>
                        match skipWs r2 with
                        | [] => none
                        | d :: r3 =>
                          if d = ',' then
                            match parseCore fuel PKind.members r3 with
                            | some (Json.obj ms', r4) =>
                              some (Json.obj ((⟨k', h⟩, v') :: ms'), r4)
                            | _ => none
                          else if d = rbraceC then some (Json.obj [(⟨k', h⟩, v')], r3)
                          else none
                    | _ => none
                  else none) = some (Json.obj ((k, v) :: m' :: t''), rest)
          rw [parseStrCore_esc k.val _ k.property]
          show (if h : validStrChars k.val = true then
                  match skipWs (':' :: (emit v ++ (',' :: (emitMembers (m' :: t'') ++
                      (rbraceC :: rest))))) with
                  | ':' :: r' =>
                    match parseCore fuel PKind.value r' with
                    | none => none
                    | some (v', r2) =>
                      match skipWs r2 with
                      | [] => none
                      | d :: r3 =>
                        if d = ',' then
                          match parseCore fuel PKind.members r3 with
                          | some (Json.obj ms', r4) =>
                            some (Json.obj ((⟨k.val, h⟩, v') :: ms'), r4)
                          | _ => none
                        else if d = rbraceC then some (Json.obj [(⟨k.val, h⟩, v')], r3)
                        else none
                  | _ => none
                else none) = some (Json.obj ((k, v) :: m' :: t''), rest)
          rw [dif_pos k.property]
          show (match parseCore fuel PKind.value (emit v ++ (',' :: (emitMembers (m' :: t'') ++
                  (rbraceC :: rest)))) with
                | none => none
                | some (v', r2) =>
                  match skipWs r2 with
                  | [] => none
                  | d :: r3 =>
                    if d = ',' then
                      match parseCore fuel PKind.members r3 with
                      | some (Json.obj ms', r4) =>
                        some (Json.obj ((⟨k.val, k.property⟩, v') :: ms'), r4)
                      | _ => none
                    else if d = rbraceC then some (Json.obj [(⟨k.val, k.property⟩, v')], r3)
                    else none) = some (Json.obj ((k, v) :: m' :: t''), rest)
          rw [ihV v (',' :: (emitMembers (m' :: t'') ++ (rbraceC :: rest))) hszv rfl]
          show (match parseCore fuel PKind.members (emitMembers (m' :: t'') ++
                  (rbraceC :: rest)) with
                | some (Json.obj ms', r4) =>
                  some (Json.obj ((⟨k.val, k.property⟩, v) :: ms'), r4)
                | _ => none) = some (Json.obj ((k, v) :: m' :: t''), rest)
          rw [ihM (m' :: t'') rest (by simp) hszt]

/-- Serialized size dominates structural size (up to a factor), so the fuel
`loads` allocates always suffices for re-parsing a dump. -/
theorem sz_bound_all : ∀ n : Nat,
    (∀ j : Json, sizeOf j ≤ n → szJ j ≤ 2 * (emit j).length) ∧
    (∀ xs : List Json, sizeOf xs ≤ n → szL xs ≤ 3 + 2 * (emitElems xs).length) ∧
    (∀ ms : List (StrContent × Json), sizeOf ms ≤ n →
      szM ms ≤ 3 + 2 * (emitMembers ms).length) := by
  intro n
  induction n using Nat.strong_induction_on with
  | _ n ihn =>
    refine ⟨?_, ?_, ?_⟩
    · intro j hj
      cases j with
      | null => simp only [szJ, emit, List.length_cons, List.length_nil]; omega
      | boolean b =>
        cases b <;> simp only [szJ, emit, List.length_cons, List.length_nil] <;> omega
      | num lit =>
        obtain ⟨c, t, hl, _⟩ := validNum_head lit.property
        simp only [szJ, emit, hl, List.length_cons]
        omega
      | str s =>
        simp only [szJ, emit, List.length_cons, List.length_append]
        omega
      | arr xs =>
        have h1 : sizeOf xs < sizeOf (Json.arr xs) := by simp; try omega
        have hIH := (ihn (sizeOf xs) (lt_of_lt_of_le h1 hj)).2.1 xs (le_refl _)
        simp only [szJ, emit, List.length_cons, List.length_append, List.length_nil]
        omega
      | obj ms =>
        have h1 : sizeOf ms < sizeOf (Json.obj ms) := by simp; try omega
        have hIH := (ihn (sizeOf ms) (lt_of_lt_of_le h1 hj)).2.2 ms (le_refl _)
        simp only [szJ, emit, List.length_cons, List.length_append, List.length_nil]
        omega
    · intro xs hx
      cases xs with
      | nil => simp only [szL, emitElems, List.length_nil]; omega
      | cons x t =>
        have h1 : sizeOf x < sizeOf (x :: t) := by simp; omega
        have hIHx := (ihn (sizeOf x) (lt_of_lt_of_le h1 hx)).1 x (le_refl _)
        cases t with
        | nil => simp only [szL, emitElems]; omega
        | cons y t' =>
          have h2 : sizeOf (y :: t') < sizeOf (x :: y :: t') := by
            simp; try omega
          have hIHt := (ihn (sizeOf (y :: t')) (lt_of_lt_of_le h2 hx)).2.1 (y :: t')
            (le_refl _)
          simp only [szL] at hIHt ⊢
          simp only [emitElems, List.length_append, List.length_cons]
          omega
    · intro ms hm
      cases ms with
      | nil => simp only [szM, emitMembers, List.length_nil]; omega
      | cons m t =>
        rcases m with ⟨k, v⟩
        have h1 : sizeOf v < sizeOf ((k, v) :: t) := by simp; omega
        have hIHv := (ihn (sizeOf v) (lt_of_lt_of_le h1 hm)).1 v (le_refl _)
        cases t with
        | nil =>
          simp only [szM, emitMembers, List.length_cons, List.length_append]
          omega
        | cons m' t'' =>
          have h2 : sizeOf (m' :: t'') < sizeOf ((k, v) :: m' :: t'') := by
            simp; try omega
          have hIHt := (ihn (sizeOf (m' :: t'')) (lt_of_lt_of_le h2 hm)).2.2 (m' :: t'')
            (le_refl _)
          simp only [szM] at hIHt ⊢
          simp only [emitMembers, List.length_append, List.length_cons]
          omega

/-- Re-parsing a serialized JSON value recovers it exactly. -/
theorem loads_dumps (j : Json) : loads (dumps j) = some j := by
  have hb : szJ j ≤ 2 * (emit j).length + 4 := by
    have := (sz_bound_all (sizeOf j)).1 j (le_refl _)
    omega
  have hmain := (parseCore_emit (2 * (emit j).length + 4)).1 j [] hb rfl
  rw [List.append_nil] at hmain
  have hform : loads (dumps j) =
      (match parseCore (2 * (emit j).length + 4) PKind.value (emit j) with
       | none => none
       | some (j, r) =>
         match skipWs r with
         | [] => some j
         | _ => none) := rfl
  rw [hform, hmain]
  rfl

/-! ## Properties of the row-to-feature translation -/

/-- Lookup in the filtered properties: the excluded keys are gone, every
other key keeps its value. -/
theorem rget_featProps (r : Row) (k : String) :
    rget (featProps r) k =
      if k = "geometry" ∨ k = "geom" then none else rget r k := by
  induction r with
  | nil =>
    by_cases hk : k = "geometry" ∨ k = "geom" <;> simp [featProps, rget, hk]
  | cons p t ih =>
    rcases p with ⟨k0, v0⟩
    by_cases hex : k0 = "geometry" ∨ k0 = "geom"
    · rw [featProps, if_pos hex, ih]
      by_cases hk : k = "geometry" ∨ k = "geom"
      · rw [if_pos hk, if_pos hk]
      · rw [if_neg hk, if_neg hk, rget]
        have hne : k0 ≠ k := fun hEq => hk (hEq ▸ hex)
        rw [if_neg hne]
    · rw [featProps, if_neg hex]
      by_cases hk : k = "geometry" ∨ k = "geom"
      · rw [if_pos hk]
        have hne : k0 ≠ k := fun hEq => hex (hEq ▸ hk)
        rw [rget, if_neg hne, ih, if_pos hk]
      · rw [if_neg hk, rget, rget]
        by_cases he : k0 = k
        · rw [if_pos he, if_pos he]
        · rw [if_neg he, if_neg he, ih, if_neg hk]

/-- Unfolding: a row without a `geometry` key is skipped. -/
theorem buildFeatures_cons_none {r : Row} {t : List Row}
    (hg : rget r "geometry" = none) :
    buildFeatures (r :: t) = buildFeatures t := by
  simp only [buildFeatures, hg]

/-- Unfolding: a row with a falsy `geometry` value is skipped. -/
theorem buildFeatures_cons_falsy {r : Row} {t : List Row} {v : DbValue}
    (hg : rget r "geometry" = some v) (ht : truthy v = false) :
    buildFeatures (r :: t) = buildFeatures t := by
  simp only [buildFeatures, hg, ht, Bool.false_eq_true, if_false]

/-- Unfolding: a kept row whose geometry does not parse raises. -/
theorem buildFeatures_cons_bad {r : Row} {t : List Row} {v : DbValue}
    (hg : rget r "geometry" = some v) (ht : truthy v = true)
    (hl : loadsDb v = none) :
    buildFeatures (r :: t) = Except.error "json decode error" := by
  simp only [buildFeatures, hg, ht, if_true, hl]

/-- Unfolding: a kept row whose geometry parses contributes a feature in
front of the remaining translation. -/
theorem buildFeatures_cons_good {r : Row} {t : List Row} {v : DbValue} {g : Json}
    {fs : List Feature} (hg : rget r "geometry" = some v) (ht : truthy v = true)
    (hl : loadsDb v = some g) (hrec : buildFeatures t = Except.ok fs) :
    buildFeatures (r :: t) =
      Except.ok ({ properties := featProps r, geometry := g } :: fs) := by
  simp only [buildFeatures, hg, ht, if_true, hl, hrec]

/-- Unfolding: a failure later in the list propagates past a kept row. -/
theorem buildFeatures_cons_err {r : Row} {t : List Row} {v : DbValue} {g : Json}
    {e : String} (hg : rget r "geometry" = some v) (ht : truthy v = true)
    (hl : loadsDb v = some g) (hrec : buildFeatures t = Except.error e) :
    buildFeatures (r :: t) = Except.error e := by
  simp only [buildFeatures, hg, ht, if_true, hl, hrec]

/-- The feature a single surviving row yields, when its geometry parses. -/
def featureOf (r : Row) : Option Feature :=
  match rget r "geometry" with
  | none => none
  | some v =>
    if truthy v then
      match loadsDb v with
      | none => none
      | some g => some { properties := featProps r, geometry := g }
    else none

/-- Rows whose geometry is missing or falsy contribute nothing: filtering
them away before translating changes nothing. -/
theorem buildFeatures_filter (rows : List Row) :
    buildFeatures (rows.filter geomTruthy) = buildFeatures rows := by
  induction rows with
  | nil => rfl
  | cons r t ih =>
    cases hg : rget r "geometry" with
    | none =>
      have hgt : geomTruthy r = false := by simp [geomTruthy, hg]
      rw [List.filter_cons_of_neg (by simp [hgt]), ih, buildFeatures_cons_none hg]
    | some v =>
      cases ht : truthy v with
      | false =>
        have hgt : geomTruthy r = false := by simp [geomTruthy, hg, ht]
        rw [List.filter_cons_of_neg (by simp [hgt]), ih, buildFeatures_cons_falsy hg ht]
      | true =>
        have hgt : geomTruthy r = true := by simp [geomTruthy, hg, ht]
        rw [List.filter_cons_of_pos (by simp [hgt])]
        cases hl : loadsDb v with
        | none => rw [buildFeatures_cons_bad hg ht hl, buildFeatures_cons_bad hg ht hl]
        | some g =>
          cases hb : buildFeatures t with
          | error e =>
            rw [buildFeatures_cons_err hg ht hl (ih.trans hb), buildFeatures_cons_err hg ht hl hb]
          | ok fs =>
            rw [buildFeatures_cons_good hg ht hl (ih.trans hb),
              buildFeatures_cons_good hg ht hl hb]

/-- Successful translation relates the surviving rows to the features
pairwise, in order. -/
theorem buildFeatures_forall₂ : ∀ (rows : List Row) (fs : List Feature),
    buildFeatures rows = Except.ok fs →
    List.Forall₂ (fun r f => ∃ v, rget r "geometry" = some v ∧ truthy v = true ∧
      loadsDb v = some f.geometry ∧ f.properties = featProps r)
      (rows.filter geomTruthy) fs := by
  intro rows
  induction rows with
  | nil =>
    intro fs h
    simp only [buildFeatures, Except.ok.injEq] at h
    subst h
    exact List.Forall₂.nil
  | cons r t ih =>
    intro fs h
    cases hg : rget r "geometry" with
    | none =>
      have hgt : geomTruthy r = false := by simp [geomTruthy, hg]
      rw [List.filter_cons_of_neg (by simp [hgt])]
      exact ih fs ((buildFeatures_cons_none hg).symm.trans h)
    | some v =>
      cases ht : truthy v with
      | false =>
        have hgt : geomTruthy r = false := by simp [geomTruthy, hg, ht]
        rw [List.filter_cons_of_neg (by simp [hgt])]
        exact ih fs ((buildFeatures_cons_falsy hg ht).symm.trans h)
      | true =>
        have hgt : geomTruthy r = true := by simp [geomTruthy, hg, ht]
        rw [List.filter_cons_of_pos (by simp [hgt])]
        cases hl : loadsDb v with
        | none =>
          rw [buildFeatures_cons_bad hg ht hl] at h
          exact absurd h (by simp)
        | some g =>
          cases hb : buildFeatures t with
          | error e =>
            rw [buildFeatures_cons_err hg ht hl hb] at h
            exact absurd h (by simp)
          | ok fs' =>
            rw [buildFeatures_cons_good hg ht hl hb] at h
            have hfs : { properties := featProps r, geometry := g } :: fs' = fs := by
              simpa using h
            subst hfs
            exact List.Forall₂.cons ⟨v, hg, ht, hl, rfl⟩ (ih fs' hb)

/-- Right-to-left membership along a pairwise relation. -/
theorem forall₂_exists_left {α β : Type} {R : α → β → Prop} :
    ∀ {l₁ : List α} {l₂ : List β}, List.Forall₂ R l₁ l₂ →
      ∀ b ∈ l₂, ∃ a ∈ l₁, R a b := by
  intro l₁ l₂ h
  induction h with
  | nil => intro b hb; simp at hb
  | cons hr _ ih =>
    intro b hb
    rcases List.mem_cons.mp hb with rfl | hb'
    · exact ⟨_, List.mem_cons_self _ _, hr⟩
    · obtain ⟨a, ha, har⟩ := ih b hb'
      exact ⟨a, List.mem_cons_of_mem _ ha, har⟩

/-- Splitting a translation across an append: both halves succeed and the
features concatenate. -/
theorem buildFeatures_append : ∀ (xs ys : List Row) (fs : List Feature),
    buildFeatures (xs ++ ys) = Except.ok fs →
    ∃ as bs, buildFeatures xs = Except.ok as ∧ buildFeatures ys = Except.ok bs ∧
      fs = as ++ bs := by
  intro xs
  induction xs with
  | nil => intro ys fs h; exact ⟨[], fs, rfl, h, rfl⟩
  | cons r t ih =>
    intro ys fs h
    rw [List.cons_append] at h
    cases hg : rget r "geometry" with
    | none =>
      obtain ⟨as, bs, h1, h2, h3⟩ := ih ys fs ((buildFeatures_cons_none hg).symm.trans h)
      exact ⟨as, bs, (buildFeatures_cons_none hg).trans h1, h2, h3⟩
    | some v =>
      cases ht : truthy v with
      | false =>
        obtain ⟨as, bs, h1, h2, h3⟩ := ih ys fs ((buildFeatures_cons_falsy hg ht).symm.trans h)
        exact ⟨as, bs, (buildFeatures_cons_falsy hg ht).trans h1, h2, h3⟩
      | true =>
        cases hl : loadsDb v with
        | none =>
          rw [buildFeatures_cons_bad hg ht hl] at h
          exact absurd h (by simp)
        | some g =>
          cases hb : buildFeatures (t ++ ys) with
          | error e =>
            rw [buildFeatures_cons_err hg ht hl hb] at h
            exact absurd h (by simp)
          | ok fs' =>
            rw [buildFeatures_cons_good hg ht hl hb] at h
            have hfs : { properties := featProps r, geometry := g } :: fs' = fs := by
              simpa using h
            subst hfs
            obtain ⟨as, bs, h1, h2, h3⟩ := ih ys fs' hb
            exact ⟨{ properties := featProps r, geometry := g } :: as, bs,
              buildFeatures_cons_good hg ht hl h1, h2, by rw [h3, List.cons_append]⟩

/-- A surviving head row contributes exactly one leading feature. -/
theorem buildFeatures_cons_okE {r : Row} {t : List Row} {fs : List Feature}
    (h : buildFeatures (r :: t) = Except.ok fs) (hgt : geomTruthy r = true) :
    ∃ f fs', featureOf r = some f ∧ buildFeatures t = Except.ok fs' ∧ fs = f :: fs' := by
  cases hg : rget r "geometry" with
  | none => simp [geomTruthy, hg] at hgt
  | some v =>
    have ht : truthy v = true := by simpa [geomTruthy, hg] using hgt
    cases hl : loadsDb v with
    | none =>
      rw [buildFeatures_cons_bad hg ht hl] at h
      exact absurd h (by simp)
    | some g =>
      cases hb : buildFeatures t with
      | error e =>
        rw [buildFeatures_cons_err hg ht hl hb] at h
        exact absurd h (by simp)
      | ok fs' =>
        rw [buildFeatures_cons_good hg ht hl hb] at h
        refine ⟨{ properties := featProps r, geometry := g }, fs', ?_, rfl, by simpa using h.symm⟩
        simp [featureOf, hg, ht, hl]


/-! ## The two view handlers -/

/-- Unfolding: `jcwprzeczne` skips a row without a `geometry` key. -/
theorem buildJcwp_cons_none {r : Row} {t : List Row} (hg : rget r "geometry" = none) :
    buildJcwpFeatures (r :: t) = buildJcwpFeatures t := by
  simp only [buildJcwpFeatures, hg]

/-- Unfolding: `jcwprzeczne` skips a row with falsy geometry. -/
theorem buildJcwp_cons_falsy {r : Row} {t : List Row} {v : DbValue}
    (hg : rget r "geometry" = some v) (ht : truthy v = false) :
    buildJcwpFeatures (r :: t) = buildJcwpFeatures t := by
  simp only [buildJcwpFeatures, hg, ht, Bool.false_eq_true, if_false]

/-- Unfolding: a kept row of `jcwprzeczne` with parseable geometry and an
`id` column yields a feature whose `name` falls back through `row.get`. -/
theorem buildJcwp_cons_good {r : Row} {t : List Row} {v : DbValue} {idv : DbValue}
    {g : Json} {fs : List Feature} (hg : rget r "geometry" = some v)
    (ht : truthy v = true) (hid : rget r "id" = some idv) (hl : loadsDb v = some g)
    (hrec : buildJcwpFeatures t = Except.ok fs) :
    buildJcwpFeatures (r :: t) =
      Except.ok (Feature.mk
        [("id", idv), ("name", (rget r "Nazwa_JCWP").getD (DbValue.vstr "Brak nazwy"))]
        g :: fs) := by
  simp only [buildJcwpFeatures, hg, ht, if_true, hid, hl, hrec]

/-- Every feature the `jcwprzeczne` translation emits for rows lacking a
`Nazwa_JCWP` column carries the fallback name. -/
theorem buildJcwp_name : ∀ (rows : List Row) (fs : List Feature),
    (∀ r ∈ rows, rget r "Nazwa_JCWP" = none) →
    buildJcwpFeatures rows = Except.ok fs →
    ∀ f ∈ fs, rget f.properties "name" = some (DbValue.vstr "Brak nazwy") := by
  intro rows
  induction rows with
  | nil =>
    intro fs _ h f hf
    simp only [buildJcwpFeatures, Except.ok.injEq] at h
    subst h
    simp at hf
  | cons r t ih =>
    intro fs hnames h f hf
    have hhd : rget r "Nazwa_JCWP" = none := hnames r (List.mem_cons_self r t)
    have htl : ∀ r' ∈ t, rget r' "Nazwa_JCWP" = none :=
      fun r' hr' => hnames r' (List.mem_cons_of_mem r hr')
    cases hg : rget r "geometry" with
    | none => exact ih fs htl ((buildJcwp_cons_none hg).symm.trans h) f hf
    | some v =>
      cases ht : truthy v with
      | false => exact ih fs htl ((buildJcwp_cons_falsy hg ht).symm.trans h) f hf
      | true =>
        cases hid : rget r "id" with
        | none =>
          rw [show buildJcwpFeatures (r :: t) = Except.error "KeyError" by
              simp only [buildJcwpFeatures, hg, ht, if_true, hid]] at h
          exact absurd h (by simp)
        | some idv =>
          cases hl : loadsDb v with
          | none =>
            rw [show buildJcwpFeatures (r :: t) = Except.error "json decode error" by
                simp only [buildJcwpFeatures, hg, ht, if_true, hid, hl]] at h
            exact absurd h (by simp)
          | some g =>
            cases hb : buildJcwpFeatures t with
            | error e =>
              rw [show buildJcwpFeatures (r :: t) = Except.error e by
                  simp only [buildJcwpFeatures, hg, ht, if_true, hid, hl, hb]] at h
              exact absurd h (by simp)
            | ok fs' =>
              rw [buildJcwp_cons_good hg ht hid hl hb] at h
              have hfs : Feature.mk
                  [("id", idv), ("name", (rget r "Nazwa_JCWP").getD (DbValue.vstr "Brak nazwy"))]
                  g :: fs' = fs := by simpa using h
              subst hfs
              rcases List.mem_cons.mp hf with rfl | hf'
              · rw [hhd]
                show rget [("id", idv), ("name", DbValue.vstr "Brak nazwy")] "name" =
                  some (DbValue.vstr "Brak nazwy")
                rw [rget, if_neg (by decide), rget, if_pos rfl]
              · exact ih fs' htl hb f hf'

/-- `korytarze_ekologiczne` builds one feature per row: no filtering. -/
theorem buildKorytarze_length : ∀ (rows : List Row) (fs : List Feature),
    buildKorytarzeFeatures rows = Except.ok fs → fs.length = rows.length := by
  intro rows
  induction rows with
  | nil =>
    intro fs h
    simp only [buildKorytarzeFeatures, Except.ok.injEq] at h
    subst h
    rfl
  | cons r t ih =>
    intro fs h
    cases hid : rget r "id" with
    | none =>
      rw [show buildKorytarzeFeatures (r :: t) = Except.error "KeyError" by
          simp only [buildKorytarzeFeatures, hid]] at h
      exact absurd h (by simp)
    | some idv =>
      cases hname : rget r "name" with
      | none =>
        rw [show buildKorytarzeFeatures (r :: t) = Except.error "KeyError" by
            simp only [buildKorytarzeFeatures, hid, hname]] at h
        exact absurd h (by simp)
      | some namev =>
        cases hg : rget r "geometry" with
        | none =>
          rw [show buildKorytarzeFeatures (r :: t) = Except.error "KeyError" by
              simp only [buildKorytarzeFeatures, hid, hname, hg]] at h
          exact absurd h (by simp)
        | some gv =>
          cases hl : loadsDb gv with
          | none =>
            rw [show buildKorytarzeFeatures (r :: t) = Except.error "json decode error" by
                simp only [buildKorytarzeFeatures, hid, hname, hg, hl]] at h
            exact absurd h (by simp)
          | some g =>
            cases hb : buildKorytarzeFeatures t with
            | error e =>
              rw [show buildKorytarzeFeatures (r :: t) = Except.error e by
                  simp only [buildKorytarzeFeatures, hid, hname, hg, hl, hb]] at h
              exact absurd h (by simp)
            | ok fs' =>
              rw [show buildKorytarzeFeatures (r :: t) =
                  Except.ok (Feature.mk [("id", idv), ("name", namev)] g :: fs') by
                  simp only [buildKorytarzeFeatures, hid, hname, hg, hl, hb]] at h
              have hfs : Feature.mk [("id", idv), ("name", namev)] g :: fs' = fs := by
                simpa using h
              subst hfs
              simp [ih fs' hb]

/-- A row whose geometry is missing or SQL `NULL` makes the whole
`korytarze_ekologiczne` translation raise. -/
theorem buildKorytarze_error : ∀ rows : List Row, ∀ r ∈ rows,
    (rget r "geometry" = none ∨ rget r "geometry" = some DbValue.vnull) →
    ∃ e, buildKorytarzeFeatures rows = Except.error e := by
  intro rows
  induction rows with
  | nil => intro r hr; simp at hr
  | cons r0 t ih =>
    intro r hr hbad
    cases hid : rget r0 "id" with
    | none =>
      exact ⟨"KeyError", by simp only [buildKorytarzeFeatures, hid]⟩
    | some idv =>
      cases hname : rget r0 "name" with
      | none =>
        exact ⟨"KeyError", by simp only [buildKorytarzeFeatures, hid, hname]⟩
      | some namev =>
        cases hg : rget r0 "geometry" with
        | none =>
          exact ⟨"KeyError", by simp only [buildKorytarzeFeatures, hid, hname, hg]⟩
        | some gv =>
          cases hl : loadsDb gv with
          | none =>
            exact ⟨"json decode error",
              by simp only [buildKorytarzeFeatures, hid, hname, hg, hl]⟩
          | some g =>
            rcases List.mem_cons.mp hr with rfl | hr'
            · rcases hbad with hbad | hbad
              · rw [hbad] at hg; exact absurd hg (by simp)
              · rw [hbad] at hg
                have : gv = DbValue.vnull := by simpa using hg.symm
                subst this
                simp [loadsDb] at hl
            · obtain ⟨e, he⟩ := ih r hr' hbad
              exact ⟨e, by simp only [buildKorytarzeFeatures, hid, hname, hg, hl, he]⟩

/-! ## Sample data for witnesses -/

/-- A row with a truthy, parseable geometry. -/
def sampleGoodRow : Row :=
  [("id", DbValue.vint 1), ("name", DbValue.vstr "A"), ("geometry", DbValue.vstr "true")]

/-- A row whose geometry is the empty string. -/
def sampleEmptyGeomRow : Row :=
  [("id", DbValue.vint 2), ("name", DbValue.vstr "B"), ("geometry", DbValue.vstr "")]

/-- A second row with a truthy, parseable geometry. -/
def sampleGoodRow2 : Row :=
  [("id", DbValue.vint 4), ("name", DbValue.vstr "D"), ("geometry", DbValue.vstr "false")]

/-- The property-exclusion example row of the spec: a raw `geom` column next
to the computed `geometry` one. -/
def sampleSpecRow : Row :=
  [("id", DbValue.vint 3), ("name", DbValue.vstr "C"), ("geom", DbValue.vstr "raw"),
   ("geometry", DbValue.vstr "true")]

/-- A row whose geometry is SQL `NULL`. -/
def sampleNullGeomRow : Row :=
  [("id", DbValue.vint 1), ("name", DbValue.vstr "A"), ("geometry", DbValue.vnull)]

/-- A river-section row as returned by the `jcwprzeczne` query, whose
aliasing leaves no `Nazwa_JCWP` key. -/
def sampleJcwpRow : Row :=
  [("id", DbValue.vint 1), ("name", DbValue.vstr "W"), ("geometry", DbValue.vstr "true")]

/-- The feature `sampleGoodRow` yields. -/
def sampleFeature1 : Feature :=
  { properties := [("id", DbValue.vint 1), ("name", DbValue.vstr "A")],
    geometry := Json.boolean true }

/-- The feature `sampleGoodRow2` yields. -/
def sampleFeature2 : Feature :=
  { properties := [("id", DbValue.vint 4), ("name", DbValue.vstr "D")],
    geometry := Json.boolean false }

/-! ## Claims -/

/-- C1: `BaseModel.fetch_all` does not signal a failing SQL execution: it
catches the exception and returns the empty list, indistinguishable from an
empty successful result — contrary to the specified `QueryFailure`
propagation. -/
theorem C1_fetch_all_swallows_failure : ∀ query e : String,
    BaseModel.fetch_all query (Except.error e) = [] ∧
    BaseModel.fetch_all query (Except.error e) =
      BaseModel.fetch_all query (Except.ok []) :=
  fun _ _ => ⟨rfl, rfl⟩

/-- C2: rows whose `geometry` field is missing, `NULL` or the empty string
are filtered out and contribute no feature, and every emitted feature's
geometry is the parse of a present, truthy geometry value of some input
row. -/
theorem C2_geometry_filtering : ∀ rows : List Row,
    buildFeatures (rows.filter geomTruthy) = buildFeatures rows ∧
    (∀ r : Row, rget r "geometry" = none ∨ rget r "geometry" = some DbValue.vnull ∨
        rget r "geometry" = some (DbValue.vstr "") → geomTruthy r = false) ∧
    (∀ fs : List Feature, buildFeatures rows = Except.ok fs →
      ∀ f ∈ fs, ∃ r ∈ rows, ∃ v, rget r "geometry" = some v ∧ truthy v = true ∧
        loadsDb v = some f.geometry) := by
  intro rows
  refine ⟨buildFeatures_filter rows, ?_, ?_⟩
  · intro r hr
    rcases hr with hr | hr | hr <;> simp [geomTruthy, hr, truthy]
  · intro fs h f hf
    obtain ⟨r, hrmem, hR⟩ := forall₂_exists_left (buildFeatures_forall₂ rows fs h) f hf
    obtain ⟨v, hv, htv, hlv, _⟩ := hR
    exact ⟨r, List.mem_of_mem_filter hrmem, v, hv, htv, hlv⟩

/-- C2 witness: on the spec's example pair of rows, the empty-geometry row
is dropped and only the id=1 feature remains. -/
theorem C2_witness :
    buildFeatures ([sampleGoodRow, sampleEmptyGeomRow].filter geomTruthy) =
      buildFeatures [sampleGoodRow, sampleEmptyGeomRow] ∧
    geomTruthy sampleEmptyGeomRow = false ∧
    (∀ f ∈ [sampleFeature1], ∃ r ∈ [sampleGoodRow, sampleEmptyGeomRow], ∃ v,
      rget r "geometry" = some v ∧ truthy v = true ∧ loadsDb v = some f.geometry) := by
  refine ⟨(C2_geometry_filtering [sampleGoodRow, sampleEmptyGeomRow]).1, ?_, ?_⟩
  · exact (C2_geometry_filtering [sampleGoodRow, sampleEmptyGeomRow]).2.1
      sampleEmptyGeomRow (Or.inr (Or.inr rfl))
  · exact fun f hf => (C2_geometry_filtering [sampleGoodRow, sampleEmptyGeomRow]).2.2
      [sampleFeature1] rfl f hf

/-- C4: every emitted feature's `properties` equals the originating row
restricted to keys other than exactly `geometry` and `geom`: both keys are
absent from `properties` and every other column keeps its value. -/
theorem C4_properties_restriction : ∀ (rows : List Row) (fs : List Feature),
    buildFeatures rows = Except.ok fs →
    ∀ f ∈ fs, ∃ r ∈ rows, f.properties = featProps r ∧
      ∀ k : String, rget f.properties k =
        if k = "geometry" ∨ k = "geom" then none else rget r k := by
  intro rows fs h f hf
  obtain ⟨r, hrmem, hR⟩ := forall₂_exists_left (buildFeatures_forall₂ rows fs h) f hf
  obtain ⟨v, _, _, _, hprops⟩ := hR
  refine ⟨r, List.mem_of_mem_filter hrmem, hprops, ?_⟩
  intro k
  rw [hprops, rget_featProps]

/-- C4 witness: on the spec's example row with both `geom` and `geometry`
columns, properties are exactly id and name. -/
theorem C4_witness :
    ∃ r ∈ [sampleSpecRow],
      (Feature.mk [("id", DbValue.vint 3), ("name", DbValue.vstr "C")]
        (Json.boolean true)).properties = featProps r ∧
      ∀ k : String,
        rget (Feature.mk [("id", DbValue.vint 3), ("name", DbValue.vstr "C")]
          (Json.boolean true)).properties k =
          if k = "geometry" ∨ k = "geom" then none else rget r k :=
  C4_properties_restriction [sampleSpecRow]
    [Feature.mk [("id", DbValue.vint 3), ("name", DbValue.vstr "C")] (Json.boolean true)]
    rfl _ (List.mem_singleton.mpr rfl)

/-- C5: the translation preserves the relative order of surviving rows: if
two surviving rows appear in a given order in the input, their features
appear in the same order in the output. -/
theorem C5_feature_order : ∀ (l1 : List Row) (r1 : Row) (l2 : List Row) (r2 : Row)
    (l3 : List Row) (fs : List Feature),
    buildFeatures (l1 ++ (r1 :: (l2 ++ (r2 :: l3)))) = Except.ok fs →
    geomTruthy r1 = true → geomTruthy r2 = true →
    ∃ m1 f1 m2 f2 m3, featureOf r1 = some f1 ∧ featureOf r2 = some f2 ∧
      fs = m1 ++ (f1 :: (m2 ++ (f2 :: m3))) := by
  intro l1 r1 l2 r2 l3 fs h h1 h2
  obtain ⟨as, bs, hA, hB, hAB⟩ := buildFeatures_append l1 _ fs h
  obtain ⟨f1, bs', hf1, hB', hbs⟩ := buildFeatures_cons_okE hB h1
  obtain ⟨cs, ds, hC, hD, hCD⟩ := buildFeatures_append l2 _ bs' hB'
  obtain ⟨f2, ds', hf2, _, hds⟩ := buildFeatures_cons_okE hD h2
  exact ⟨as, f1, cs, f2, ds', hf1, hf2, by rw [hAB, hbs, hCD, hds]⟩

/-- C5 witness: with a skipped row between two surviving rows, the two
features come out in input order. -/
theorem C5_witness :
    ∃ m1 f1 m2 f2 m3, featureOf sampleGoodRow = some f1 ∧
      featureOf sampleGoodRow2 = some f2 ∧
      [sampleFeature1, sampleFeature2] = m1 ++ (f1 :: (m2 ++ (f2 :: m3))) :=
  C5_feature_order [] sampleGoodRow [sampleEmptyGeomRow] sampleGoodRow2 []
    [sampleFeature1, sampleFeature2] rfl rfl rfl

/-- C7: the empty row sequence translates successfully to a
FeatureCollection with no features, as an HTTP 200 response; an empty
result is not an error. -/
theorem C7_empty_result : ∀ q : String,
    execute_geojson_query q (Except.ok []) =
      JsonResponse (RespBody.featureCollection []) ∧
    buildFeatures ([] : List Row) = Except.ok [] :=
  fun _ => ⟨rfl, rfl⟩

/-- C8: a parsed geometry survives a serialize/re-parse round trip
unchanged, and the emitted feature stores the parsed structure itself. -/
theorem C8_geometry_roundtrip : ∀ (s : String) (j : Json), loads s = some j →
    loads (dumps j) = loads s ∧
    ∀ (r : Row) (fs : List Feature), rget r "geometry" = some (DbValue.vstr s) →
      buildFeatures [r] = Except.ok fs → ∀ f ∈ fs, f.geometry = j := by
  intro s j h
  constructor
  · rw [loads_dumps j, h]
  · intro r fs hg hb f hf
    have hs : s ≠ "" := by
      intro hEq
      subst hEq
      rw [show loads "" = none from rfl] at h
      exact absurd h (by simp)
    have ht : truthy (DbValue.vstr s) = true := by simp [truthy, hs]
    have hl : loadsDb (DbValue.vstr s) = some j := by simp [loadsDb, h]
    have hstep := buildFeatures_cons_good (t := []) hg ht hl rfl
    rw [hstep] at hb
    have hfs : fs = [{ properties := featProps r, geometry := j }] := by
      simpa using hb.symm
    subst hfs
    rcases List.mem_singleton.mp hf with rfl
    rfl

/-- C8 witness: the JSON text `true` parses, and the round trip through the
serializer is the identity on the parse. -/
theorem C8_witness :
    loads "true" = some (Json.boolean true) ∧
    (loads (dumps (Json.boolean true)) = loads "true" ∧
     ∀ (r : Row) (fs : List Feature), rget r "geometry" = some (DbValue.vstr "true") →
       buildFeatures [r] = Except.ok fs → ∀ f ∈ fs, f.geometry = Json.boolean true) :=
  ⟨rfl, C8_geometry_roundtrip "true" (Json.boolean true) rfl⟩

/-- C9: because the `jcwprzeczne` query aliases `Nazwa_JCWP` to `name`, the
handler's lookup of `Nazwa_JCWP` always misses, so every emitted feature's
`name` property is the constant fallback `Brak nazwy`. -/
theorem C9_jcwp_fallback_name : ∀ (rows : List Row) (resp : Response),
    (∀ r ∈ rows, rget r "Nazwa_JCWP" = none) →
    jcwprzeczne rows = Except.ok resp →
    ∃ fs, resp = JsonResponse (RespBody.featureCollection fs) ∧
      ∀ f ∈ fs, rget f.properties "name" = some (DbValue.vstr "Brak nazwy") := by
  intro rows resp hn h
  cases hb : buildJcwpFeatures rows with
  | error e =>
    rw [show jcwprzeczne rows = Except.error e by simp only [jcwprzeczne, hb]] at h
    exact absurd h (by simp)
  | ok fs =>
    rw [show jcwprzeczne rows = Except.ok (JsonResponse (RespBody.featureCollection fs)) by
        simp only [jcwprzeczne, hb]] at h
    have hresp : JsonResponse (RespBody.featureCollection fs) = resp := by simpa using h
    exact ⟨fs, hresp.symm, buildJcwp_name rows fs hn hb⟩

/-- C9 witness: a row named `W` by the alias still yields the fallback
name. -/
theorem C9_witness :
    ∃ fs, JsonResponse (RespBody.featureCollection
        [Feature.mk [("id", DbValue.vint 1), ("name", DbValue.vstr "Brak nazwy")]
          (Json.boolean true)]) =
      JsonResponse (RespBody.featureCollection fs) ∧
      ∀ f ∈ fs, rget f.properties "name" = some (DbValue.vstr "Brak nazwy") :=
  C9_jcwp_fallback_name [sampleJcwpRow]
    (JsonResponse (RespBody.featureCollection
      [Feature.mk [("id", DbValue.vint 1), ("name", DbValue.vstr "Brak nazwy")]
        (Json.boolean true)]))
    (by decide) rfl

/-- C10: `korytarze_ekologiczne` builds a feature for every row without
filtering, and a row whose geometry is missing or `NULL` makes the handler
raise an unhandled exception instead of skipping the row or returning a
structured error response. -/
theorem C10_korytarze_unfiltered : ∀ rows : List Row,
    (∀ fs : List Feature, buildKorytarzeFeatures rows = Except.ok fs →
      fs.length = rows.length) ∧
    (∀ r ∈ rows, rget r "geometry" = none ∨ rget r "geometry" = some DbValue.vnull →
      ∃ e, korytarze_ekologiczne rows = Except.error e) := by
  intro rows
  refine ⟨fun fs h => buildKorytarze_length rows fs h, ?_⟩
  intro r hr hbad
  obtain ⟨e, he⟩ := buildKorytarze_error rows r hr hbad
  exact ⟨e, by simp only [korytarze_ekologiczne, he]⟩

/-- C10 witness: one good row yields one feature, and a `NULL`-geometry row
makes the handler raise. -/
theorem C10_witness :
    ([Feature.mk [("id", DbValue.vint 1), ("name", DbValue.vstr "A")]
        (Json.boolean true)] : List Feature).length = [sampleGoodRow].length ∧
    ∃ e, korytarze_ekologiczne [sampleNullGeomRow] = Except.error e :=
  ⟨(C10_korytarze_unfiltered [sampleGoodRow]).1 _ rfl,
   (C10_korytarze_unfiltered [sampleNullGeomRow]).2 sampleNullGeomRow
     (List.mem_singleton.mpr rfl) (Or.inr rfl)⟩

/-- C3: on a row whose geometry text is not valid JSON, the code does not
fail with a `MalformedGeometry` error identifying the row: it returns an
HTTP 200 `JsonResponse` with a generic error body that is identical for
different rows with the same geometry text. -/
theorem C3_malformed_geometry_generic_error :
    execute_geojson_query "SELECT 1" (Except.ok
        [[("id", DbValue.vint 1), ("geometry", DbValue.vstr "\x7bnot valid json")]]) =
      JsonResponse (RespBody.errorBody "json decode error"
        "Error occurred while processing data.") ∧
    execute_geojson_query "SELECT 1" (Except.ok
        [[("id", DbValue.vint 1), ("geometry", DbValue.vstr "\x7bnot valid json")]]) =
      execute_geojson_query "SELECT 1" (Except.ok
        [[("id", DbValue.vint 2), ("geometry", DbValue.vstr "\x7bnot valid json")]]) ∧
    (execute_geojson_query "SELECT 1" (Except.ok
        [[("id", DbValue.vint 1), ("geometry", DbValue.vstr "\x7bnot valid json")]])).status =
      200 :=
  ⟨rfl, rfl, rfl⟩

/-- C6: when the query execution fails, `execute_geojson_query` still
returns HTTP status 200 with the `error`/`message` body, contrary to the
specified non-2xx error mapping. -/
theorem C6_http_200_on_failure :
    (execute_geojson_query "SELECT 1" (Except.error "connection lost")).status = 200 ∧
    execute_geojson_query "SELECT 1" (Except.error "connection lost") =
      JsonResponse (RespBody.errorBody "connection lost"
        "Error occurred while processing data.") :=
  ⟨rfl, rfl⟩
